import Mathlib

set_option maxRecDepth 4000

/-!
Shallow embedding of the Archy crawler service (src/crawler/main.py).

Strings are modelled as lists of Unicode code points (`List Char`), which
matches Python string semantics for indexing, length and slicing.  The
line-oriented cleaning algorithm `clean_terraform_docs` is translated
function by function; the `/scrape` endpoint `scrape_url` is modelled as a
function from the rendering collaborator's outcome (crawl4ai's result, or an
exception escaping from it) to either a returned `ScrapeResponse` or a raised
`HTTPException` (status code and detail), mirroring the `try/except` blocks.
-/

/-- Whitespace characters removed by Python's `str.strip()` (the ASCII
whitespace set `' \t\n\r\v\f'`; the claims never exercise the additional
Unicode space code points Python would also strip). -/
def isPySpace (c : Char) : Bool :=
  c = ' ' || c = '\t' || c = '\n' || c = '\r' || c = '\x0b' || c = '\x0c'

/-- Python `str.strip()`: drop whitespace from both ends. -/
def pyStrip (l : List Char) : List Char :=
  ((l.dropWhile isPySpace).reverse.dropWhile isPySpace).reverse

/-- Python `markdown.split("\n")`: split into lines at every newline,
keeping empty fields (so `""` splits to `[""]` and a trailing newline yields
a final empty line). -/
def splitNl : List Char → List (List Char)
  | [] => [[]]
  | c :: rest =>
    if c = '\n' then [] :: splitNl rest
    else (splitNl rest).modifyHead (fun l => c :: l)

/-- Python `"\n".join(lines)`. -/
def joinNl : List (List Char) → List Char
  | [] => []
  | [l] => l
  | l :: l2 :: ls => l ++ '\n' :: joinNl (l2 :: ls)

/-- Does the text start with a newline character? -/
def startsNl (l : List Char) : Bool :=
  l.headD ' ' = '\n'

/-- Python `re.sub(r"\n{3,}", "\n\n", s)`: every maximal run of three or
more newlines is replaced by exactly two, implemented by deleting every
newline that is followed by at least two further newlines (which keeps
exactly the last two of each run). -/
def collapse : List Char → List Char
  | [] => []
  | c :: rest =>
    if c = '\n' ∧ startsNl rest ∧ startsNl rest.tail then collapse rest
    else c :: collapse rest

/-- Python `line.count("](")`: number of non-overlapping occurrences of the
two-character pattern `](`.  Because `](` cannot overlap itself, Python's
consuming left-to-right count equals the number of positions at which `](`
occurs, counted here. -/
def countLinks : List Char → Nat
  | [] => 0
  | c :: rest =>
    (if c = ']' ∧ rest.headD ' ' = '(' then 1 else 0) + countLinks rest

/-- Python substring containment `pat in line`: `pat` occurs (contiguously)
somewhere in the text. -/
def hasSub (pat : List Char) : List Char → Bool
  | [] => List.isPrefixOf pat []
  | c :: rest => List.isPrefixOf pat (c :: rest) || hasSub pat rest

/-- Condition of the start-boundary loop (main.py lines 43-46): the line
starts with one of the two heading patterns or contains "Example Usage". -/
def startPred (line : List Char) : Bool :=
  List.isPrefixOf ("# azurerm_".data) line ||
  List.isPrefixOf ("# data.azurerm_".data) line ||
  hasSub ("## Example Usage".data) line ||
  hasSub ("Example Usage".data) line

/-- Condition of the end-boundary loop (main.py line 52): the line contains
one of the footer markers. -/
def endPred (line : List Char) : Bool :=
  hasSub ("HashiCorp".data) line ||
  hasSub ("Â© 20".data) line ||
  hasSub ("Privacy".data) line ||
  hasSub ("Terms of Service".data) line

/-- Python `any(pattern in line for pattern in skip_patterns)` over the six
navigation-phrase markers (main.py lines 58-65). -/
def navAny (line : List Char) : Bool :=
  hasSub ("Browse".data) line ||
  hasSub ("Sign-in".data) line ||
  hasSub ("Search all resources".data) line ||
  hasSub ("Version History".data) line ||
  hasSub ("[Published".data) line ||
  hasSub ("View all versions".data) line

/-- Per-line filter of the extraction loop (main.py lines 67-74): a line is
kept unless it is navigation noise under 150 characters, or has more than 5
markdown link constructs. -/
def keepLine (line : List Char) : Bool :=
  if navAny line ∧ line.length < 150 then false
  else if 5 < countLinks line then false
  else true

/-- First loop of `clean_terraform_docs`: index of the first line satisfying
`startPred`, if any. -/
def findStartIdx : List (List Char) → Option Nat
  | [] => none
  | l :: rest => if startPred l then some 0 else (findStartIdx rest).map (· + 1)

/-- Python `doc_start`: initialised to 0 and set by the first matching line. -/
def docStart (lines : List (List Char)) : Nat :=
  (findStartIdx lines).getD 0

/-- Second loop of `clean_terraform_docs`, scanning `i` downward through
`range(len(lines) - 1, doc_start, -1)`: the first index from the bottom
(strictly above `doc_start`) whose line satisfies `endPred`, else
`len(lines)`. -/
def findEndFrom (lines : List (List Char)) (ds : Nat) : Nat → Nat
  | 0 => lines.length
  | i + 1 =>
    if i + 1 ≤ ds then lines.length
    else if endPred (lines.getD (i + 1) []) then i + 1
    else findEndFrom lines ds i

/-- Python `doc_end`: result of the bottom-to-top scan started at
`len(lines) - 1`. -/
def docEnd (lines : List (List Char)) (ds : Nat) : Nat :=
  findEndFrom lines ds (lines.length - 1)

/-- Character-level translation of `clean_terraform_docs` (main.py lines
30-81): split into lines, locate `doc_start` and `doc_end`, slice
`lines[doc_start:doc_end]`, filter noise lines, rejoin, collapse blank runs,
and strip surrounding whitespace. -/
def cleanChars (input : List Char) : List Char :=
  let lines := splitNl input
  let ds := docStart lines
  let de := docEnd lines ds
  let cleaned := ((lines.drop ds).take (de - ds)).filter keepLine
  pyStrip (collapse (joinNl cleaned))

/-- The list of kept lines (`cleaned_lines` in main.py): the slice
`lines[doc_start:doc_end]` with the noise lines dropped. -/
def cleanedLines (input : List Char) : List (List Char) :=
  (((splitNl input).drop (docStart (splitNl input))).take
    (docEnd (splitNl input) (docStart (splitNl input)) -
      docStart (splitNl input))).filter keepLine

/-- `clean_terraform_docs` on Lean strings. -/
def clean_terraform_docs (markdown : String) : String :=
  String.mk (cleanChars markdown.data)

/-- Lines of an input document, as computed by `clean_terraform_docs`. -/
def docLines (input : String) : List (List Char) :=
  splitNl input.data

/-- The detected start boundary of an input document. -/
def dsOf (input : String) : Nat :=
  docStart (docLines input)

/-- The detected end boundary of an input document. -/
def deOf (input : String) : Nat :=
  docEnd (docLines input) (dsOf input)

/-- Result object of the rendering collaborator (crawl4ai `arun`):
`success`, `markdown_v2.raw_markdown` and `error_message`. -/
structure RenderOutcome where
  success : Bool
  raw_markdown : String
  error_message : String

/-- Response model of the `/scrape` endpoint (main.py lines 24-27). -/
structure ScrapeResponse where
  markdown : String
  success : Bool
  error : Option String
deriving DecidableEq

/-- What one call of `scrape_url` does: either return a `ScrapeResponse`, or
raise an `HTTPException status detail` past the endpoint (re-raised by the
`except HTTPException` arm and turned into an HTTP error by FastAPI). -/
inductive ScrapeResult where
  | response : ScrapeResponse → ScrapeResult
  | httpError : Nat → String → ScrapeResult
deriving DecidableEq

/-- What the crawl stage of the `try` block produces: either the
collaborator's `RenderOutcome`, or an exception (message `msg`) raised inside
the block and caught by the generic `except Exception` arm. -/
inductive CrawlEvent where
  | outcome : RenderOutcome → CrawlEvent
  | exn : String → CrawlEvent

/-- Translation of `scrape_url` (main.py lines 89-167) as a function of the
crawl stage's behaviour: a failed render raises
`HTTPException(500, "Crawl failed: ...")`; cleaned markdown under 200
characters raises `HTTPException(500, "Extracted content too short ...")`;
otherwise a successful `ScrapeResponse` is returned.  `HTTPException`s are
re-raised by `except HTTPException: raise`; any other exception becomes
`ScrapeResponse(markdown="", success=False, error=str(e))`. -/
def scrape_url : CrawlEvent → ScrapeResult
  | .exn msg => .response ⟨"", false, some msg⟩
  | .outcome result =>
    if result.success = false then
      .httpError 500 ("Crawl failed: " ++ result.error_message)
    else
      let markdown := clean_terraform_docs result.raw_markdown
      if markdown.length < 200 then
        .httpError 500 ("Extracted content too short (" ++ toString markdown.length ++
          " chars). Page may not have loaded properly.")
      else
        .response ⟨markdown, true, none⟩

/-- Discriminator: did `scrape_url` return a `ScrapeResponse` (as opposed to
raising an `HTTPException`)? -/
def isResponse : ScrapeResult → Bool
  | .response _ => true
  | .httpError _ _ => false

/-- Whether the text contains three consecutive newline characters, i.e.
whether the pattern `\n{3,}` matches somewhere in it. -/
def hasTriple : List Char → Bool
  | [] => false
  | c :: rest => (decide (c = '\n') && startsNl rest && startsNl rest.tail) || hasTriple rest

/-! ### Helper lemmas about line splitting and joining -/

theorem splitNl_cons_nl (rest : List Char) :
    splitNl ('\n' :: rest) = [] :: splitNl rest := by
  simp [splitNl]

theorem splitNl_cons_ne (c : Char) (rest : List Char) (hc : ¬ c = '\n') :
    splitNl (c :: rest) = (splitNl rest).modifyHead (fun l => c :: l) := by
  simp [splitNl, hc]

theorem splitNl_ne_nil (s : List Char) : splitNl s ≠ [] := by
  induction s with
  | nil => simp [splitNl]
  | cons c rest ih =>
    by_cases hc : c = '\n'
    · subst hc; rw [splitNl_cons_nl]; simp
    · rw [splitNl_cons_ne c rest hc]
      cases h : splitNl rest with
      | nil => exact absurd h ih
      | cons a t => simp

theorem modifyHead_headD (f : List Char → List Char) (L : List (List Char))
    (h : L ≠ []) : (L.modifyHead f).headD [] = f (L.headD []) := by
  cases L with
  | nil => exact absurd rfl h
  | cons a t => simp

theorem modifyHead_tail (f : List Char → List Char) (L : List (List Char)) :
    (L.modifyHead f).tail = L.tail := by
  cases L <;> simp

theorem headD_mem (L : List (List Char)) (h : L ≠ []) : L.headD [] ∈ L := by
  cases L with
  | nil => exact absurd rfl h
  | cons a t => simp

theorem splitNl_no_nl (s : List Char) : ∀ l ∈ splitNl s, '\n' ∉ l := by
  induction s with
  | nil => intro l hl; simp [splitNl] at hl; simp [hl]
  | cons c rest ih =>
    intro l hl
    by_cases hc : c = '\n'
    · subst hc; rw [splitNl_cons_nl] at hl
      rcases List.mem_cons.1 hl with rfl | hl
      · simp
      · exact ih l hl
    · rw [splitNl_cons_ne c rest hc] at hl
      cases hsp : splitNl rest with
      | nil => exact absurd hsp (splitNl_ne_nil rest)
      | cons a t =>
        rw [hsp] at hl
        simp only [List.modifyHead_cons] at hl
        rcases List.mem_cons.1 hl with rfl | hl
        · intro hmem
          rcases List.mem_cons.1 hmem with h1 | h1
          · exact hc h1.symm
          · exact ih a (by rw [hsp]; simp) h1
        · exact ih l (by rw [hsp]; simp [hl])

theorem modifyHead_idfun (L : List (List Char)) :
    L.modifyHead (fun h => h) = L := by
  cases L <;> simp

theorem modifyHead_modifyHead (f g : List Char → List Char) (L : List (List Char)) :
    (L.modifyHead g).modifyHead f = L.modifyHead (fun x => f (g x)) := by
  cases L <;> simp

theorem splitNl_append (t r : List Char) :
    splitNl (t ++ r) =
      (splitNl t).dropLast ++
        (splitNl r).modifyHead (fun h => (splitNl t).getLastD [] ++ h) := by
  induction t with
  | nil => simp [splitNl, modifyHead_idfun]
  | cons c t' ih =>
    by_cases hc : c = '\n'
    · subst hc
      cases hsp : splitNl t' with
      | nil => exact absurd hsp (splitNl_ne_nil t')
      | cons h tt =>
        rw [List.cons_append, splitNl_cons_nl, splitNl_cons_nl, ih, hsp]
        cases tt with
        | nil => simp [List.getLastD_cons]
        | cons h2 tt' => simp [List.getLastD_cons]
    · cases hsp : splitNl t' with
      | nil => exact absurd hsp (splitNl_ne_nil t')
      | cons h tt =>
        rw [List.cons_append, splitNl_cons_ne c _ hc, splitNl_cons_ne c _ hc, ih, hsp]
        cases tt with
        | nil =>
          simp [modifyHead_modifyHead, List.getLastD_cons]
          rfl
        | cons h2 tt' => simp [List.getLastD_cons, modifyHead_modifyHead, Function.comp]

theorem getLastD_eq_getLast (L : List (List Char)) (h : L ≠ []) :
    L.getLastD [] = L.getLast h := by
  rw [List.getLastD_eq_getLast?, List.getLast?_eq_getLast L h, Option.getD_some]

theorem mem_dropLast_or_getLastD (L : List (List Char)) (h : L ≠ [])
    (l : List Char) (hl : l ∈ L) : l ∈ L.dropLast ∨ l = L.getLastD [] := by
  have hd := List.dropLast_append_getLast h
  rw [← hd] at hl
  rcases List.mem_append.1 hl with h1 | h1
  · exact Or.inl h1
  · right
    rw [getLastD_eq_getLast L h]
    simpa using h1

theorem mem_splitNl_append_left (t r : List Char) :
    ∀ l ∈ splitNl t, ∃ l2 ∈ splitNl (t ++ r), l <+: l2 := by
  intro l hl
  rw [splitNl_append]
  rcases mem_dropLast_or_getLastD (splitNl t) (splitNl_ne_nil t) l hl with h1 | h1
  · exact ⟨l, List.mem_append.2 (Or.inl h1), List.prefix_rfl⟩
  · cases hB : splitNl r with
    | nil => exact absurd hB (splitNl_ne_nil r)
    | cons b bt =>
      refine ⟨(splitNl t).getLastD [] ++ b, List.mem_append.2 (Or.inr ?_), ?_⟩
      · simp
      · rw [h1]; exact ⟨b, rfl⟩

theorem mem_splitNl_append_right (t r : List Char) :
    ∀ l ∈ splitNl r, ∃ l2 ∈ splitNl (t ++ r), l <:+ l2 := by
  intro l hl
  rw [splitNl_append]
  cases hB : splitNl r with
  | nil => exact absurd hB (splitNl_ne_nil r)
  | cons b bt =>
    rw [hB] at hl
    rcases List.mem_cons.1 hl with rfl | h1
    · refine ⟨(splitNl t).getLastD [] ++ l, List.mem_append.2 (Or.inr ?_), ?_⟩
      · simp
      · exact ⟨(splitNl t).getLastD [], rfl⟩
    · refine ⟨l, List.mem_append.2 (Or.inr ?_), List.suffix_rfl⟩
      simp [h1]

theorem mem_splitNl_of_mid (u m v : List Char) :
    ∀ l ∈ splitNl m, ∃ l2 ∈ splitNl (u ++ m ++ v), l <:+: l2 := by
  intro l hl
  obtain ⟨l1, hl1, a, ha⟩ := mem_splitNl_append_left m v l hl
  obtain ⟨l2, hl2, b, hb⟩ := mem_splitNl_append_right u (m ++ v) l1 hl1
  rw [List.append_assoc]
  refine ⟨l2, hl2, b, a, ?_⟩
  rw [← hb, ← ha, List.append_assoc]

theorem pyStrip_decomp (s : List Char) :
    s = (s.takeWhile isPySpace) ++ pyStrip s ++
      ((s.dropWhile isPySpace).reverse.takeWhile isPySpace).reverse := by
  have h1 := (List.takeWhile_append_dropWhile isPySpace s).symm
  have h2 := (List.takeWhile_append_dropWhile isPySpace
    ((s.dropWhile isPySpace).reverse)).symm
  calc s = s.takeWhile isPySpace ++ s.dropWhile isPySpace := h1
    _ = s.takeWhile isPySpace ++ ((s.dropWhile isPySpace).reverse).reverse := by
        rw [List.reverse_reverse]
    _ = _ := by
        rw [List.append_assoc]
        congr 1
        rw [show ((s.dropWhile isPySpace).reverse).reverse =
          ((s.dropWhile isPySpace).reverse.takeWhile isPySpace ++
            (s.dropWhile isPySpace).reverse.dropWhile isPySpace).reverse from by rw [← h2]]
        rw [List.reverse_append]
        rfl

theorem mem_splitNl_pyStrip (s : List Char) :
    ∀ l ∈ splitNl (pyStrip s), ∃ l2 ∈ splitNl s, l <:+: l2 := by
  intro l hl
  have hd := pyStrip_decomp s
  have := mem_splitNl_of_mid (s.takeWhile isPySpace) (pyStrip s)
    ((s.dropWhile isPySpace).reverse.takeWhile isPySpace).reverse l hl
  rw [← hd] at this
  exact this

theorem splitNl_singleton (l : List Char) (h : '\n' ∉ l) : splitNl l = [l] := by
  induction l with
  | nil => simp [splitNl]
  | cons c r ih =>
    have hc : ¬ c = '\n' := fun hcc => h (by simp [hcc])
    rw [splitNl_cons_ne c r hc, ih (fun hr => h (List.mem_cons_of_mem c hr))]
    simp

theorem splitNl_nonl_append (l X : List Char) (h : '\n' ∉ l) :
    splitNl (l ++ X) = (splitNl X).modifyHead (fun x => l ++ x) := by
  induction l with
  | nil => simp [modifyHead_idfun]
  | cons c r ih =>
    have hc : ¬ c = '\n' := fun hcc => h (by simp [hcc])
    rw [List.cons_append, splitNl_cons_ne c _ hc,
      ih (fun hr => h (List.mem_cons_of_mem c hr)), modifyHead_modifyHead]
    rfl

theorem splitNl_joinNl (L : List (List Char)) (hne : L ≠ [])
    (hnl : ∀ l ∈ L, '\n' ∉ l) : splitNl (joinNl L) = L := by
  induction L with
  | nil => exact absurd rfl hne
  | cons l L' ih =>
    cases L' with
    | nil => exact splitNl_singleton l (hnl l (by simp))
    | cons l2 ls =>
      rw [show joinNl (l :: l2 :: ls) = l ++ '\n' :: joinNl (l2 :: ls) from rfl]
      rw [splitNl_nonl_append l _ (hnl l (by simp)), splitNl_cons_nl]
      rw [ih (by simp) (fun x hx => hnl x (List.mem_cons_of_mem l hx))]
      simp

theorem joinNl_cons_head (c : Char) (h : List Char) (tt : List (List Char)) :
    joinNl ((c :: h) :: tt) = c :: joinNl (h :: tt) := by
  cases tt <;> rfl

theorem joinNl_splitNl (s : List Char) : joinNl (splitNl s) = s := by
  induction s with
  | nil => rfl
  | cons c rest ih =>
    by_cases hc : c = '\n'
    · subst hc
      rw [splitNl_cons_nl]
      cases hsp : splitNl rest with
      | nil => exact absurd hsp (splitNl_ne_nil rest)
      | cons h tt =>
        rw [show joinNl ([] :: h :: tt) = [] ++ '\n' :: joinNl (h :: tt) from rfl]
        rw [← hsp, ih]
        rfl
    · rw [splitNl_cons_ne c rest hc]
      cases hsp : splitNl rest with
      | nil => exact absurd hsp (splitNl_ne_nil rest)
      | cons h tt =>
        rw [List.modifyHead_cons, joinNl_cons_head, ← hsp, ih]

/-! ### Helper lemmas about blank-line collapsing -/

theorem startsNl_collapse (s : List Char) : startsNl (collapse s) = startsNl s := by
  induction s with
  | nil => rfl
  | cons c rest ih =>
    show startsNl (if c = '\n' ∧ startsNl rest ∧ startsNl rest.tail
      then collapse rest else c :: collapse rest) = _
    split
    · next hcond =>
      rw [ih]
      have h1 : startsNl rest = true := hcond.2.1
      rw [h1]
      simp [startsNl, hcond.1]
    · simp [startsNl]

theorem hasTriple_collapse (s : List Char) : hasTriple (collapse s) = false := by
  induction s with
  | nil => rfl
  | cons c rest ih =>
    show hasTriple (if c = '\n' ∧ startsNl rest ∧ startsNl rest.tail
      then collapse rest else c :: collapse rest) = false
    split
    · exact ih
    · next hcond =>
      show ((decide (c = '\n') && startsNl (collapse rest) &&
        startsNl (collapse rest).tail) || hasTriple (collapse rest)) = false
      rw [ih, Bool.or_false]
      by_cases hc : c = '\n'
      · subst hc
        by_cases hr : startsNl rest = true
        · cases rest with
          | nil => simp [startsNl] at hr
          | cons c2 r2 =>
            have hc2 : c2 = '\n' := by simpa [startsNl] using hr
            subst hc2
            have hr2 : startsNl r2 = false := by
              cases h2 : startsNl r2 with
              | false => rfl
              | true => exact absurd ⟨rfl, hr, by simpa [List.tail] using h2⟩ hcond
            have hcol : collapse ('\n' :: r2) = '\n' :: collapse r2 := by
              show (if '\n' = '\n' ∧ startsNl r2 ∧ startsNl r2.tail
                then collapse r2 else '\n' :: collapse r2) = '\n' :: collapse r2
              rw [if_neg]
              intro hcc
              rw [hr2] at hcc
              exact Bool.false_ne_true hcc.2.1
            rw [hcol]
            show (decide ('\n' = '\n') && startsNl ('\n' :: collapse r2) &&
              startsNl (collapse r2)) = false
            rw [startsNl_collapse, hr2]
            simp
        · rw [startsNl_collapse]
          rw [Bool.not_eq_true] at hr
          rw [hr]
          simp
      · simp [hc]

theorem collapse_eq_self (s : List Char) (h : hasTriple s = false) :
    collapse s = s := by
  induction s with
  | nil => rfl
  | cons c rest ih =>
    have hsplit : (decide (c = '\n') && startsNl rest && startsNl rest.tail) = false ∧
        hasTriple rest = false := by
      have : ((decide (c = '\n') && startsNl rest && startsNl rest.tail) ||
          hasTriple rest) = false := h
      constructor
      · exact (Bool.or_eq_false_iff.1 this).1
      · exact (Bool.or_eq_false_iff.1 this).2
    show (if c = '\n' ∧ startsNl rest ∧ startsNl rest.tail
      then collapse rest else c :: collapse rest) = c :: rest
    rw [if_neg, ih hsplit.2]
    intro hcond
    have : (decide (c = '\n') && startsNl rest && startsNl rest.tail) = true := by
      simp [hcond.1, hcond.2.1, hcond.2.2]
    rw [hsplit.1] at this
    exact Bool.false_ne_true this

theorem collapse_length_le (s : List Char) :
    (collapse s).length ≤ s.length := by
  induction s with
  | nil => simp [collapse]
  | cons c rest ih =>
    show (if c = '\n' ∧ startsNl rest ∧ startsNl rest.tail
      then collapse rest else c :: collapse rest).length ≤ (c :: rest).length
    split
    · exact le_trans ih (by simp)
    · simpa using ih

theorem splitNl_headD (s : List Char) :
    (splitNl s).headD [] = s.takeWhile (fun c => !(c = '\n')) := by
  induction s with
  | nil => simp [splitNl]
  | cons c rest ih =>
    by_cases hc : c = '\n'
    · subst hc; rw [splitNl_cons_nl]; simp [List.takeWhile_cons]
    · rw [splitNl_cons_ne c rest hc,
        modifyHead_headD _ _ (splitNl_ne_nil rest), ih, List.takeWhile_cons]
      simp [hc]

theorem takeWhile_collapse (s : List Char) :
    (collapse s).takeWhile (fun c => !(c = '\n')) =
      s.takeWhile (fun c => !(c = '\n')) := by
  induction s with
  | nil => rfl
  | cons c rest ih =>
    show (if c = '\n' ∧ startsNl rest ∧ startsNl rest.tail
      then collapse rest else c :: collapse rest).takeWhile _ = _
    split
    · next hcond =>
      obtain ⟨hc, hr, -⟩ := hcond
      subst hc
      cases rest with
      | nil => simp [startsNl] at hr
      | cons c2 r2 =>
        have hc2 : c2 = '\n' := by simpa [startsNl] using hr
        subst hc2
        rw [ih]
        simp [List.takeWhile_cons]
    · rw [List.takeWhile_cons, List.takeWhile_cons, ih]

theorem headD_splitNl_collapse (s : List Char) :
    (splitNl (collapse s)).headD [] = (splitNl s).headD [] := by
  rw [splitNl_headD, splitNl_headD, takeWhile_collapse]

theorem mem_headD_or_tail (L : List (List Char)) (h : L ≠ [])
    (l : List Char) (hl : l ∈ L) : l = L.headD [] ∨ l ∈ L.tail := by
  cases L with
  | nil => exact absurd rfl h
  | cons a t =>
    rcases List.mem_cons.1 hl with rfl | h1
    · exact Or.inl rfl
    · exact Or.inr h1

theorem mem_tail_splitNl_collapse (s : List Char) :
    ∀ l ∈ (splitNl (collapse s)).tail, l = [] ∨ l ∈ (splitNl s).tail := by
  induction s with
  | nil => intro l hl; simp [collapse, splitNl] at hl
  | cons c rest ih =>
    intro l hl
    rw [show collapse (c :: rest) = (if c = '\n' ∧ startsNl rest ∧ startsNl rest.tail
      then collapse rest else c :: collapse rest) from rfl] at hl
    by_cases hcond : c = '\n' ∧ startsNl rest ∧ startsNl rest.tail = true
    · rw [if_pos hcond] at hl
      obtain ⟨hc, -, -⟩ := hcond
      subst hc
      rw [splitNl_cons_nl]
      rcases ih l hl with h1 | h1
      · exact Or.inl h1
      · exact Or.inr (List.mem_of_mem_tail h1)
    · rw [if_neg hcond] at hl
      by_cases hc : c = '\n'
      · subst hc
        rw [splitNl_cons_nl] at hl
        simp only [List.tail_cons] at hl
        rw [splitNl_cons_nl, List.tail_cons]
        rcases mem_headD_or_tail _ (splitNl_ne_nil (collapse rest)) l hl with h1 | h1
        · rw [h1, headD_splitNl_collapse]
          exact Or.inr (headD_mem _ (splitNl_ne_nil rest))
        · rcases ih l h1 with h2 | h2
          · exact Or.inl h2
          · exact Or.inr (List.mem_of_mem_tail h2)
      · rw [splitNl_cons_ne c _ hc, modifyHead_tail] at hl
        rw [splitNl_cons_ne c _ hc, modifyHead_tail]
        exact ih l hl

theorem mem_splitNl_collapse (s : List Char) :
    ∀ l ∈ splitNl (collapse s), l = [] ∨ l ∈ splitNl s := by
  intro l hl
  rcases mem_headD_or_tail _ (splitNl_ne_nil (collapse s)) l hl with h1 | h1
  · rw [h1, headD_splitNl_collapse]
    exact Or.inr (headD_mem _ (splitNl_ne_nil s))
  · rcases mem_tail_splitNl_collapse s l h1 with h2 | h2
    · exact Or.inl h2
    · exact Or.inr (List.mem_of_mem_tail h2)

/-! ### Provenance of output lines -/

theorem cleanChars_eq (input : List Char) :
    cleanChars input = pyStrip (collapse (joinNl (cleanedLines input))) := rfl

theorem cleanedLines_mem_splitNl (input : List Char) :
    ∀ l ∈ cleanedLines input, l ∈ splitNl input := by
  intro l hl
  have h1 := @List.filter_sublist _ keepLine
    ((((splitNl input).drop (docStart (splitNl input))).take
      (docEnd (splitNl input) (docStart (splitNl input)) -
        docStart (splitNl input))))
  have h2 := h1.subset hl
  have h3 := List.take_subset _ _ h2
  exact List.drop_subset _ _ h3

theorem mem_splitNl_cleanChars (input : List Char) :
    ∀ l ∈ splitNl (cleanChars input),
      l = [] ∨ ∃ l2 ∈ cleanedLines input, l <:+: l2 := by
  intro l hl
  rw [cleanChars_eq] at hl
  obtain ⟨l1, hl1, hinf⟩ :=
    mem_splitNl_pyStrip (collapse (joinNl (cleanedLines input))) l hl
  rcases mem_splitNl_collapse _ l1 hl1 with rfl | hl2
  · left
    obtain ⟨u, v, huv⟩ := hinf
    have := List.append_eq_nil.1 huv
    exact (List.append_eq_nil.1 this.1).2
  · by_cases hF : cleanedLines input = []
    · rw [hF] at hl2
      have : l1 = [] := by simpa [joinNl, splitNl] using hl2
      subst this
      left
      obtain ⟨u, v, huv⟩ := hinf
      have := List.append_eq_nil.1 huv
      exact (List.append_eq_nil.1 this.1).2
    · rw [splitNl_joinNl (cleanedLines input) hF
        (fun x hx => splitNl_no_nl input x (cleanedLines_mem_splitNl input x hx))] at hl2
      exact Or.inr ⟨l1, hl2, hinf⟩

theorem cleanedLines_mem_take (input : List Char) :
    ∀ l ∈ cleanedLines input,
      l ∈ (splitNl input).take (docEnd (splitNl input) (docStart (splitNl input))) := by
  intro l hl
  have h2 := (@List.filter_sublist _ keepLine _).subset hl
  rw [← List.drop_take] at h2
  exact List.drop_subset _ _ h2

theorem cleanedLines_mem_drop (input : List Char) :
    ∀ l ∈ cleanedLines input,
      l ∈ (splitNl input).drop (docStart (splitNl input)) := by
  intro l hl
  have h2 := (@List.filter_sublist _ keepLine _).subset hl
  exact List.take_subset _ _ h2

theorem cleanedLines_keep (input : List Char) :
    ∀ l ∈ cleanedLines input, keepLine l = true := by
  intro l hl
  exact List.of_mem_filter hl

/-! ### Characterisation of the boundary scans -/

theorem getD_mem_of_lt (L : List (List Char)) (i : Nat) (h : i < L.length) :
    L.getD i [] ∈ L := by
  rw [List.getD_eq_getElem _ _ h]
  exact List.getElem_mem h

theorem findStartIdx_spec (lines : List (List Char)) :
    (findStartIdx lines = none ∧ ∀ l ∈ lines, startPred l = false) ∨
      (∃ i, findStartIdx lines = some i ∧ i < lines.length ∧
        startPred (lines.getD i []) = true ∧
        ∀ j, j < i → startPred (lines.getD j []) = false) := by
  induction lines with
  | nil => left; simp [findStartIdx]
  | cons l rest ih =>
    by_cases hl : startPred l = true
    · right
      exact ⟨0, by simp [findStartIdx, hl], by simp, by simpa using hl, by omega⟩
    · rw [Bool.not_eq_true] at hl
      rcases ih with ⟨h1, h2⟩ | ⟨i, h1, h2, h3, h4⟩
      · left
        constructor
        · simp [findStartIdx, hl, h1]
        · intro x hx
          rcases List.mem_cons.1 hx with rfl | hx
          · exact hl
          · exact h2 x hx
      · right
        refine ⟨i + 1, ?_, by simpa using h2, by simpa using h3, ?_⟩
        · simp [findStartIdx, hl, h1]
        · intro j hj
          cases j with
          | zero => simpa using hl
          | succ j' => simpa using h4 j' (by omega)

theorem docStart_spec (lines : List (List Char)) :
    (∀ j, j < docStart lines → startPred (lines.getD j []) = false) ∧
      (docStart lines = 0 ∨ (docStart lines < lines.length ∧
        startPred (lines.getD (docStart lines) []) = true)) := by
  have hds : docStart lines = (findStartIdx lines).getD 0 := rfl
  rcases findStartIdx_spec lines with ⟨h1, h2⟩ | ⟨i, h1, h2, h3, h4⟩
  · rw [hds, h1]
    exact ⟨fun j hj => absurd hj (by simp), Or.inl rfl⟩
  · rw [hds, h1]
    exact ⟨h4, Or.inr ⟨h2, h3⟩⟩

theorem docStart_lt_length (lines : List (List Char)) (h : lines ≠ []) :
    docStart lines < lines.length := by
  rcases (docStart_spec lines).2 with h1 | h1
  · rw [h1]
    exact List.length_pos.2 h
  · exact h1.1

theorem findEndFrom_spec (lines : List (List Char)) (ds : Nat) (i : Nat) :
    (findEndFrom lines ds i = lines.length ∧
      ∀ j, ds < j → j ≤ i → endPred (lines.getD j []) = false) ∨
    (ds < findEndFrom lines ds i ∧ findEndFrom lines ds i ≤ i ∧
      endPred (lines.getD (findEndFrom lines ds i) []) = true ∧
      ∀ j, findEndFrom lines ds i < j → j ≤ i →
        endPred (lines.getD j []) = false) := by
  induction i with
  | zero => left; exact ⟨rfl, fun j hj1 hj2 => by omega⟩
  | succ i ih =>
    have hunf : findEndFrom lines ds (i + 1) =
        (if i + 1 ≤ ds then lines.length
          else if endPred (lines.getD (i + 1) []) then i + 1
          else findEndFrom lines ds i) := rfl
    rw [hunf]
    by_cases h1 : i + 1 ≤ ds
    · rw [if_pos h1]
      left
      exact ⟨rfl, fun j hj1 hj2 => by omega⟩
    · rw [if_neg h1]
      by_cases h2 : endPred (lines.getD (i + 1) []) = true
      · rw [if_pos h2]
        right
        exact ⟨by omega, le_refl _, h2, fun j hj1 hj2 => by omega⟩
      · rw [Bool.not_eq_true] at h2
        rw [if_neg (by rw [h2]; exact Bool.false_ne_true)]
        rcases ih with ⟨ha, hb⟩ | ⟨ha, hb, hc, hd⟩
        · left
          refine ⟨ha, fun j hj1 hj2 => ?_⟩
          rcases Nat.lt_or_ge j (i + 1) with hj | hj
          · exact hb j hj1 (by omega)
          · have : j = i + 1 := by omega
            rw [this]
            exact h2
        · right
          refine ⟨ha, by omega, hc, fun j hj1 hj2 => ?_⟩
          rcases Nat.lt_or_ge j (i + 1) with hj | hj
          · exact hd j hj1 (by omega)
          · have : j = i + 1 := by omega
            rw [this]
            exact h2

theorem docEnd_spec (lines : List (List Char)) (ds : Nat) (h : lines ≠ []) :
    (docEnd lines ds = lines.length ∧
      ∀ j, ds < j → j < lines.length → endPred (lines.getD j []) = false) ∨
    (ds < docEnd lines ds ∧ docEnd lines ds < lines.length ∧
      endPred (lines.getD (docEnd lines ds) []) = true ∧
      ∀ j, docEnd lines ds < j → j < lines.length →
        endPred (lines.getD j []) = false) := by
  have hlen : 1 ≤ lines.length := List.length_pos.2 h
  have hde : docEnd lines ds = findEndFrom lines ds (lines.length - 1) := rfl
  rw [hde]
  rcases findEndFrom_spec lines ds (lines.length - 1) with ⟨h1, h2⟩ | ⟨h1, h2, h3, h4⟩
  · left
    exact ⟨h1, fun j hj1 hj2 => h2 j hj1 (by omega)⟩
  · right
    exact ⟨h1, by omega, h3, fun j hj1 hj2 => h4 j hj1 (by omega)⟩

theorem docEnd_pos (lines : List (List Char)) (ds : Nat) (h : lines ≠ []) :
    1 ≤ docEnd lines ds := by
  have hlen : 1 ≤ lines.length := List.length_pos.2 h
  rcases docEnd_spec lines ds h with ⟨h1, -⟩ | ⟨h1, -, -, -⟩
  · rw [h1]
    exact hlen
  · omega

/-! ### Monotonicity of the link count -/

theorem countLinks_cons_le (a : Char) (l : List Char) :
    countLinks l ≤ countLinks (a :: l) := by
  show countLinks l ≤ (if a = ']' ∧ l.headD ' ' = '(' then 1 else 0) + countLinks l
  exact Nat.le_add_left _ _

theorem countLinks_append_le (l v : List Char) :
    countLinks l ≤ countLinks (l ++ v) := by
  induction l with
  | nil => simp [countLinks]
  | cons c rest ih =>
    show (if c = ']' ∧ rest.headD ' ' = '(' then 1 else 0) + countLinks rest ≤
      (if c = ']' ∧ (rest ++ v).headD ' ' = '(' then 1 else 0) + countLinks (rest ++ v)
    cases rest with
    | nil =>
      have hno : ¬ (c = ']' ∧ ([] : List Char).headD ' ' = '(') := by
        intro hcc
        exact absurd hcc.2 (by simp)
      rw [if_neg hno, show countLinks ([] : List Char) = 0 from rfl]
      omega
    | cons b r =>
      have hh : ((b :: r) ++ v).headD ' ' = (b :: r).headD ' ' := by simp
      rw [hh]
      have := ih
      omega

theorem countLinks_prepend_le (u l : List Char) :
    countLinks l ≤ countLinks (u ++ l) := by
  induction u with
  | nil => simp
  | cons c rest ih =>
    exact le_trans ih (countLinks_cons_le c (rest ++ l))

theorem countLinks_of_mid (u m v : List Char) :
    countLinks m ≤ countLinks (u ++ m ++ v) := by
  rw [List.append_assoc]
  exact le_trans (countLinks_append_le m v) (countLinks_prepend_le u (m ++ v))

/-! ### Propagation of newline triples -/

theorem hasTriple_cons_of (c : Char) (l : List Char) (h : hasTriple l = true) :
    hasTriple (c :: l) = true := by
  show ((decide (c = '\n') && startsNl l && startsNl l.tail) || hasTriple l) = true
  rw [h, Bool.or_true]

theorem hasTriple_append_right (l v : List Char) (h : hasTriple l = true) :
    hasTriple (l ++ v) = true := by
  induction l with
  | nil => simp [hasTriple] at h
  | cons c rest ih =>
    have hh : ((decide (c = '\n') && startsNl rest && startsNl rest.tail)
        || hasTriple rest) = true := h
    rcases Bool.or_eq_true_iff.1 hh with h1 | h1
    · show ((decide (c = '\n') && startsNl (rest ++ v) &&
        startsNl (rest ++ v).tail) || hasTriple (rest ++ v)) = true
      have hc : decide (c = '\n') = true := by
        rcases Bool.and_eq_true_iff.1 h1 with ⟨h2, -⟩
        exact (Bool.and_eq_true_iff.1 h2).1
      have hr : startsNl rest = true := by
        rcases Bool.and_eq_true_iff.1 h1 with ⟨h2, -⟩
        exact (Bool.and_eq_true_iff.1 h2).2
      have ht : startsNl rest.tail = true := (Bool.and_eq_true_iff.1 h1).2
      cases rest with
      | nil => simp [startsNl] at hr
      | cons b r =>
        have hb : b = '\n' := by simpa [startsNl] using hr
        subst hb
        cases r with
        | nil => simp [startsNl, List.tail] at ht
        | cons b2 r2 =>
          have hb2 : b2 = '\n' := by simpa [startsNl, List.tail] using ht
          subst hb2
          rw [hc]
          simp [startsNl, List.tail]
    · exact hasTriple_cons_of c _ (ih h1)

theorem hasTriple_prepend (u l : List Char) (h : hasTriple l = true) :
    hasTriple (u ++ l) = true := by
  induction u with
  | nil => simpa using h
  | cons c rest ih => exact hasTriple_cons_of c _ ih

theorem hasTriple_of_mid (u m v : List Char) (h : hasTriple m = true) :
    hasTriple (u ++ m ++ v) = true := by
  rw [List.append_assoc]
  exact hasTriple_prepend u _ (hasTriple_append_right m v h)

/-! ### Edges of the stripped result -/

theorem dropWhile_head_not (p : Char → Bool) (l : List Char) (c : Char)
    (h : (l.dropWhile p).head? = some c) : p c = false := by
  induction l with
  | nil => simp [List.dropWhile] at h
  | cons a rest ih =>
    rw [List.dropWhile_cons] at h
    by_cases hp : p a = true
    · rw [if_pos hp] at h
      exact ih h
    · rw [Bool.not_eq_true] at hp
      rw [if_neg (by rw [hp]; exact Bool.false_ne_true)] at h
      simp at h
      rw [← h]
      exact hp

theorem pyStrip_as_mid (s : List Char) :
    ∃ u v, s = u ++ pyStrip s ++ v := by
  exact ⟨s.takeWhile isPySpace,
    ((s.dropWhile isPySpace).reverse.takeWhile isPySpace).reverse,
    pyStrip_decomp s⟩

theorem pyStrip_head_not_space (s : List Char) (c : Char)
    (h : (pyStrip s).head? = some c) : isPySpace c = false := by
  have hp : pyStrip s = ((s.dropWhile isPySpace).reverse.dropWhile isPySpace).reverse := rfl
  have hd : s.dropWhile isPySpace =
      pyStrip s ++ ((s.dropWhile isPySpace).reverse.takeWhile isPySpace).reverse := by
    have h2 := (List.takeWhile_append_dropWhile isPySpace
      ((s.dropWhile isPySpace).reverse)).symm
    calc s.dropWhile isPySpace
        = ((s.dropWhile isPySpace).reverse).reverse := by rw [List.reverse_reverse]
      _ = ((s.dropWhile isPySpace).reverse.takeWhile isPySpace ++
            (s.dropWhile isPySpace).reverse.dropWhile isPySpace).reverse := by rw [← h2]
      _ = _ := by rw [List.reverse_append, ← hp]
  cases hps : pyStrip s with
  | nil => rw [hps] at h; simp at h
  | cons a t =>
    rw [hps] at h
    simp at h
    have hhead : (s.dropWhile isPySpace).head? = some a := by
      rw [hd, hps]
      simp
    rw [← h]
    exact dropWhile_head_not isPySpace s a hhead

theorem pyStrip_last_not_space (s : List Char) (c : Char)
    (h : (pyStrip s).getLast? = some c) : isPySpace c = false := by
  have hp : pyStrip s = ((s.dropWhile isPySpace).reverse.dropWhile isPySpace).reverse := rfl
  rw [hp, List.getLast?_reverse] at h
  exact dropWhile_head_not isPySpace _ c h

/-! ### Length bookkeeping -/

theorem pyStrip_length_le (s : List Char) : (pyStrip s).length ≤ s.length := by
  obtain ⟨u, v, huv⟩ := pyStrip_as_mid s
  nth_rewrite 2 [huv]
  simp
  omega

theorem joinNl_length_cons_le (a : List Char) (L : List (List Char)) :
    (joinNl L).length ≤ (joinNl (a :: L)).length := by
  cases L with
  | nil => simp [joinNl]
  | cons h t =>
    rw [show joinNl (a :: h :: t) = a ++ '\n' :: joinNl (h :: t) from rfl]
    simp
    omega

theorem joinNl_length_le_of_sublist (S L : List (List Char)) (h : List.Sublist S L) :
    (joinNl S).length ≤ (joinNl L).length := by
  induction h with
  | slnil => simp
  | cons a hsub ih => exact le_trans ih (joinNl_length_cons_le a _)
  | cons₂ a hsub ih =>
    rename_i S' L' 
    cases S' with
    | nil =>
      cases L' with
      | nil => simp
      | cons h2 t2 =>
        rw [show joinNl [a] = a from rfl,
          show joinNl (a :: h2 :: t2) = a ++ '\n' :: joinNl (h2 :: t2) from rfl]
        simp
    | cons s ss =>
      cases L' with
      | nil => exact absurd (List.sublist_nil.1 hsub) (by simp)
      | cons h2 t2 =>
        rw [show joinNl (a :: s :: ss) = a ++ '\n' :: joinNl (s :: ss) from rfl,
          show joinNl (a :: h2 :: t2) = a ++ '\n' :: joinNl (h2 :: t2) from rfl]
        simp
        omega

theorem cleanedLines_sublist (input : List Char) :
    List.Sublist (cleanedLines input) (splitNl input) := by
  exact (List.filter_sublist _).trans
    ((List.take_sublist _ _).trans (List.drop_sublist _ _))

/-! ### Facts about the per-line filter -/

theorem keepLine_links_le (l : List Char) (h : keepLine l = true) :
    countLinks l ≤ 5 := by
  by_contra hcon
  have h5 : 5 < countLinks l := by omega
  have hkf : keepLine l = false := by
    rw [keepLine]
    by_cases h1 : navAny l = true ∧ l.length < 150
    · rw [if_pos h1]
    · rw [if_neg h1, if_pos h5]
  rw [hkf] at h
  exact Bool.false_ne_true h

theorem keepLine_of (l : List Char) (hnav : navAny l = true → 150 ≤ l.length)
    (hlinks : countLinks l ≤ 5) : keepLine l = true := by
  rw [keepLine]
  rw [if_neg, if_neg]
  · omega
  · intro hcc
    have := hnav hcc.1
    omega

/-! ### Behaviour of the scrape endpoint -/

theorem scrape_url_outcome (o : RenderOutcome) :
    scrape_url (.outcome o) =
      if o.success = false then
        .httpError 500 ("Crawl failed: " ++ o.error_message)
      else if (clean_terraform_docs o.raw_markdown).length < 200 then
        .httpError 500 ("Extracted content too short (" ++
          toString (clean_terraform_docs o.raw_markdown).length ++
          " chars). Page may not have loaded properly.")
      else .response ⟨clean_terraform_docs o.raw_markdown, true, none⟩ := rfl

/-! ### The claims -/

/-- Claim C1 counterexample: on the spec's own end-to-end scenario input, the
bottom-to-top footer scan detects the lowest marker line ("Privacy"), so the
earlier marker line "HashiCorp" survives into the cleaned output: the output
is not the spec's expected string and still contains a footer marker. -/
theorem C1_counterexample :
    clean_terraform_docs "# azurerm_foo\n\nsome docs\n\nHashiCorp\nPrivacy\n" =
      "# azurerm_foo\n\nsome docs\n\nHashiCorp" ∧
    clean_terraform_docs "# azurerm_foo\n\nsome docs\n\nHashiCorp\nPrivacy\n" ≠
      "# azurerm_foo\n\nsome docs" ∧
    hasSub ("HashiCorp".data)
      (clean_terraform_docs "# azurerm_foo\n\nsome docs\n\nHashiCorp\nPrivacy\n").data
      = true :=
  ⟨by decide, by decide, by decide⟩

/-- Claim C1 (amended): the end boundary is the bottom-most line containing a
footer marker (strictly above the start boundary; defaulting to the document
end when none matches), and every line of the cleaned output originates — as
a contiguous fragment — from a line strictly before that detected position;
marker lines above the detected position may survive.  On the scenario input
the output is "# azurerm_foo\n\nsome docs\n\nHashiCorp". -/
theorem C1_end_boundary :
    (∀ input : String,
      ((deOf input = (docLines input).length ∧
        ∀ j, dsOf input < j → j < (docLines input).length →
          endPred ((docLines input).getD j []) = false) ∨
       (dsOf input < deOf input ∧ deOf input < (docLines input).length ∧
        endPred ((docLines input).getD (deOf input) []) = true ∧
        ∀ j, deOf input < j → j < (docLines input).length →
          endPred ((docLines input).getD j []) = false)) ∧
      (∀ l ∈ splitNl (clean_terraform_docs input).data,
        ∃ orig ∈ (docLines input).take (deOf input), l <:+: orig)) ∧
    clean_terraform_docs "# azurerm_foo\n\nsome docs\n\nHashiCorp\nPrivacy\n" =
      "# azurerm_foo\n\nsome docs\n\nHashiCorp" := by
  constructor
  · intro input
    constructor
    · exact docEnd_spec (docLines input) (dsOf input) (splitNl_ne_nil _)
    · intro l hl
      have hl2 : l ∈ splitNl (cleanChars input.data) := hl
      rcases mem_splitNl_cleanChars input.data l hl2 with rfl | ⟨l2, hm, hinf⟩
      · have hne : (docLines input).take (deOf input) ≠ [] := by
          have hpos : 1 ≤ deOf input := docEnd_pos _ _ (splitNl_ne_nil _)
          cases hL : docLines input with
          | nil => exact absurd hL (splitNl_ne_nil _)
          | cons a t =>
            cases hd : deOf input with
            | zero => omega
            | succ n => simp
        exact ⟨(((docLines input).take (deOf input))).headD [],
          headD_mem _ hne, [], ((docLines input).take (deOf input)).headD [],
          by simp⟩
      · exact ⟨l2, cleanedLines_mem_take input.data l2 hm, hinf⟩
  · decide

/-- Claim C1 witness: on the scenario input, the surviving line "HashiCorp"
is indeed drawn from a line before the detected end position. -/
theorem C1_end_boundary_witness :
    ∃ orig ∈ (docLines "# azurerm_foo\n\nsome docs\n\nHashiCorp\nPrivacy\n").take
      (deOf "# azurerm_foo\n\nsome docs\n\nHashiCorp\nPrivacy\n"),
      ("HashiCorp".data) <:+: orig :=
  (C1_end_boundary.1 "# azurerm_foo\n\nsome docs\n\nHashiCorp\nPrivacy\n").2
    ("HashiCorp".data) (by decide)

/-- Claim C2 counterexample: on a failed render with message "timeout" the
endpoint does not return a `ScrapeResponse` at all — it raises an
`HTTPException(500, "Crawl failed: timeout")`, which the
`except HTTPException: raise` arm re-raises past the endpoint. -/
theorem C2_counterexample :
    isResponse (scrape_url (.outcome ⟨false, "", "timeout"⟩)) = false ∧
    scrape_url (.outcome ⟨false, "", "timeout"⟩) =
      .httpError 500 "Crawl failed: timeout" :=
  ⟨rfl, rfl⟩

/-- Claim C2 (amended): whenever the rendering collaborator reports failure,
`scrape_url` raises an `HTTPException` with status 500 whose detail is
"Crawl failed: " followed by the collaborator's message verbatim (so the
message appears verbatim inside the detail); it performs no retry and does
not return a `success=false` `ScrapeResponse` for this case. -/
theorem C2_render_failure (raw msg : String) :
    scrape_url (.outcome ⟨false, raw, msg⟩) =
      .httpError 500 ("Crawl failed: " ++ msg) ∧
    msg.data <:+: ("Crawl failed: " ++ msg).data := by
  constructor
  · rfl
  · exact ⟨"Crawl failed: ".data, [], by simp⟩

/-- Claim C3 counterexample: a successful render whose markdown cleans to 50
characters does not yield a `success=false` `ScrapeResponse`; the endpoint
raises an `HTTPException` (whose detail does state the measured length). -/
theorem C3_counterexample :
    isResponse (scrape_url
      (.outcome ⟨true, String.mk (List.replicate 50 'a'), ""⟩)) = false ∧
    scrape_url (.outcome ⟨true, String.mk (List.replicate 50 'a'), ""⟩) =
      .httpError 500
        "Extracted content too short (50 chars). Page may not have loaded properly." :=
  ⟨by decide, by decide⟩

/-- Claim C3 (amended): for every successful render whose cleaned markdown is
shorter than 200 characters, the operation is treated as a failure by raising
`HTTPException(500, ...)` whose detail states the measured length (the
decimal rendering of the length appears verbatim in the detail), and no
successful response is returned for it. -/
theorem C3_short_content (o : RenderOutcome) (hs : o.success = true)
    (hlen : (clean_terraform_docs o.raw_markdown).length < 200) :
    scrape_url (.outcome o) =
      .httpError 500 ("Extracted content too short (" ++
        toString (clean_terraform_docs o.raw_markdown).length ++
        " chars). Page may not have loaded properly.") ∧
    (toString (clean_terraform_docs o.raw_markdown).length).data <:+:
      ("Extracted content too short (" ++
        toString (clean_terraform_docs o.raw_markdown).length ++
        " chars). Page may not have loaded properly.").data := by
  constructor
  · rw [scrape_url_outcome, if_neg (by rw [hs]; simp), if_pos hlen]
  · refine ⟨"Extracted content too short (".data,
      " chars). Page may not have loaded properly.".data, ?_⟩
    simp

/-- Claim C3 witness: the length-50 instance of the amended claim. -/
theorem C3_short_content_witness :
    scrape_url (.outcome ⟨true, String.mk (List.replicate 50 'a'), ""⟩) =
      .httpError 500
        "Extracted content too short (50 chars). Page may not have loaded properly." := by
  have h := C3_short_content ⟨true, String.mk (List.replicate 50 'a'), ""⟩ rfl (by decide)
  exact h.1.trans (by decide)

/-- Claim C4: every `ScrapeResponse` the endpoint actually returns satisfies
the result invariant: a successful response carries the cleaned markdown,
which is non-empty and at least 200 characters long; a failed response has
empty markdown and a set error field. -/
theorem C4_result_invariant (ev : CrawlEvent) (r : ScrapeResponse)
    (h : scrape_url ev = ScrapeResult.response r) :
    (r.success = true → r.markdown ≠ "" ∧ 200 ≤ r.markdown.length ∧
      ∃ o, ev = CrawlEvent.outcome o ∧
        r.markdown = clean_terraform_docs o.raw_markdown) ∧
    (r.success = false → r.markdown = "" ∧ r.error ≠ none) := by
  cases ev with
  | exn msg =>
    have h2 : (⟨"", false, some msg⟩ : ScrapeResponse) = r := by
      injection h
    rw [← h2]
    constructor
    · intro htrue
      exact absurd htrue (by simp)
    · intro
      exact ⟨rfl, by simp⟩
  | outcome o =>
    rw [scrape_url_outcome] at h
    by_cases ho : o.success = false
    · rw [if_pos ho] at h
      exact absurd h (by simp)
    · rw [if_neg ho] at h
      by_cases hlen : (clean_terraform_docs o.raw_markdown).length < 200
      · rw [if_pos hlen] at h
        exact absurd h (by simp)
      · rw [if_neg hlen] at h
        have h2 : (⟨clean_terraform_docs o.raw_markdown, true, none⟩ :
            ScrapeResponse) = r := by
          injection h
        rw [← h2]
        constructor
        · intro
          refine ⟨?_, ?_, o, rfl, rfl⟩
          · show clean_terraform_docs o.raw_markdown ≠ ""
            intro hemp
            have h3 : (clean_terraform_docs o.raw_markdown).length = 0 := by
              rw [hemp]
              rfl
            omega
          · show 200 ≤ (clean_terraform_docs o.raw_markdown).length
            omega
        · intro hfalse
          exact absurd hfalse (by simp)

/-- Claim C4 witness: the failure-shaped response produced for a generic
exception satisfies the invariant's failure half. -/
theorem C4_result_invariant_witness :
    (ScrapeResponse.mk "" false (some "boom")).markdown = "" ∧
      (ScrapeResponse.mk "" false (some "boom")).error ≠ none :=
  (C4_result_invariant (.exn "boom") (ScrapeResponse.mk "" false (some "boom"))
    rfl).2 rfl

/-- Claim C5: the start boundary is the first line matching one of the two
heading patterns or containing "Example Usage" (defaulting to line 0 when
none matches, so nothing is trimmed at the top), and every line of the
cleaned output originates — as a contiguous fragment — from a line at or
after that boundary, so no line before the detected heading survives. -/
theorem C5_start_boundary :
    ∀ input : String,
      ((∀ j, j < dsOf input → startPred ((docLines input).getD j []) = false) ∧
       (dsOf input = 0 ∨ (dsOf input < (docLines input).length ∧
         startPred ((docLines input).getD (dsOf input) []) = true))) ∧
      (∀ l ∈ splitNl (clean_terraform_docs input).data,
        ∃ orig ∈ (docLines input).drop (dsOf input), l <:+: orig) := by
  intro input
  constructor
  · exact docStart_spec (docLines input)
  · intro l hl
    have hl2 : l ∈ splitNl (cleanChars input.data) := hl
    rcases mem_splitNl_cleanChars input.data l hl2 with rfl | ⟨l2, hm, hinf⟩
    · have hne : (docLines input).drop (dsOf input) ≠ [] := by
        have hlt : dsOf input < (docLines input).length :=
          docStart_lt_length (docLines input) (splitNl_ne_nil _)
        intro hcon
        have hlen := congrArg List.length hcon
        simp only [List.length_drop, List.length_nil] at hlen
        omega
      exact ⟨((docLines input).drop (dsOf input)).headD [],
        headD_mem _ hne, [], ((docLines input).drop (dsOf input)).headD [],
        by simp⟩
    · exact ⟨l2, cleanedLines_mem_drop input.data l2 hm, hinf⟩

/-- Claim C5 witness: when "Example Usage" precedes the heading, the boundary
is the "Example Usage" line and it survives as an output line drawn from at
or after the boundary. -/
theorem C5_start_boundary_witness :
    ∃ orig ∈ (docLines "intro\nExample Usage\nmid\n# azurerm_x\ndocs").drop
      (dsOf "intro\nExample Usage\nmid\n# azurerm_x\ndocs"),
      ("Example Usage".data) <:+: orig :=
  (C5_start_boundary "intro\nExample Usage\nmid\n# azurerm_x\ndocs").2
    ("Example Usage".data) (by decide)

/-- Claim C6: every line of the cleaned output contains at most 5 markdown
link constructs, so a line with more than 5 occurrences of "](" never
survives as an output line; and a line with at most 5 link constructs is
never dropped by the link rule — whether it is kept is decided solely by the
navigation-phrase rule. -/
theorem C6_link_filter :
    (∀ input : String, ∀ l ∈ splitNl (clean_terraform_docs input).data,
      countLinks l ≤ 5) ∧
    (∀ line : List Char, countLinks line ≤ 5 →
      keepLine line = !(navAny line && decide (line.length < 150))) := by
  constructor
  · intro input l hl
    have hl2 : l ∈ splitNl (cleanChars input.data) := hl
    rcases mem_splitNl_cleanChars input.data l hl2 with rfl | ⟨l2, hm, hinf⟩
    · show countLinks [] ≤ 5
      simp [countLinks]
    · have hk := cleanedLines_keep input.data l2 hm
      have h5 := keepLine_links_le l2 hk
      obtain ⟨u, v, huv⟩ := hinf
      have hmono := countLinks_of_mid u l v
      rw [huv] at hmono
      omega
  · intro line hlinks
    rw [keepLine]
    by_cases h1 : navAny line = true
    · by_cases h2 : line.length < 150
      · rw [if_pos ⟨h1, h2⟩, h1]
        simp [h2]
      · rw [if_neg (by intro hcc; exact h2 hcc.2), if_neg (by omega), h1]
        simp [h2]
    · rw [Bool.not_eq_true] at h1
      rw [if_neg (by intro hcc; rw [h1] at hcc; exact Bool.false_ne_true hcc.1),
        if_neg (by omega), h1]
      simp

/-- Claim C6 witness: a single-character line has at most 5 links and its
fate is decided by the navigation rule alone. -/
theorem C6_link_filter_witness :
    countLinks ("x".data) ≤ 5 ∧
      keepLine ("x".data) = !(navAny ("x".data) && decide (("x".data).length < 150)) :=
  ⟨C6_link_filter.1 "x" ("x".data) (by decide),
    C6_link_filter.2 ("x".data) (by decide)⟩

/-- Claim C7 counterexample.  First half: a line containing "Browse", 150
characters long but with 6 link constructs, is an input line yet is absent
from the output — a ≥150-character navigation line is not always retained.
Second half: the exact line "Browse" (under 150 characters, containing a
navigation marker) appears as a line of the cleaned output of another input,
because final whitespace trimming shortens a kept 156-character line to
"Browse" — so such a line is not always absent from the output either. -/
theorem C7_counterexample :
    (navAny ("Browse [a](b) [a](b) [a](b) [a](b) [a](b) [a](b) " ++
        String.mk (List.replicate 101 'x')).data = true ∧
      150 ≤ ("Browse [a](b) [a](b) [a](b) [a](b) [a](b) [a](b) " ++
        String.mk (List.replicate 101 'x')).length ∧
      ("Browse [a](b) [a](b) [a](b) [a](b) [a](b) [a](b) " ++
        String.mk (List.replicate 101 'x')).data ∈
        splitNl ("# azurerm_x\n" ++
          ("Browse [a](b) [a](b) [a](b) [a](b) [a](b) [a](b) " ++
            String.mk (List.replicate 101 'x')) ++ "\nrest").data ∧
      ("Browse [a](b) [a](b) [a](b) [a](b) [a](b) [a](b) " ++
        String.mk (List.replicate 101 'x')).data ∉
        splitNl (clean_terraform_docs ("# azurerm_x\n" ++
          ("Browse [a](b) [a](b) [a](b) [a](b) [a](b) [a](b) " ++
            String.mk (List.replicate 101 'x')) ++ "\nrest")).data) ∧
    (navAny ("Browse".data) = true ∧
      ("Browse".data).length < 150 ∧
      "Browse".data ∈ splitNl ("# azurerm_x\nBrowse\nBrowse" ++
        String.mk (List.replicate 150 ' ')).data ∧
      "Browse".data ∈ splitNl (clean_terraform_docs ("# azurerm_x\nBrowse\nBrowse" ++
        String.mk (List.replicate 150 ' '))).data) :=
  ⟨⟨by decide, by decide, by decide, by decide⟩,
    ⟨by decide, by decide, by decide, by decide⟩⟩

/-- Claim C7 (amended): the navigation-phrase rule of the per-line noise
filter always drops a line that contains a navigation marker and is under
150 characters, and always keeps an equivalent line of 150 or more
characters provided it has at most 5 link constructs; absence from or
retention in the final output additionally depends on the detected
boundaries and on the trimming of whitespace at the document edges. -/
theorem C7_nav_filter (line : List Char) (hnav : navAny line = true) :
    (line.length < 150 → keepLine line = false) ∧
    (150 ≤ line.length → countLinks line ≤ 5 → keepLine line = true) := by
  constructor
  · intro hlen
    rw [keepLine, if_pos ⟨hnav, hlen⟩]
  · intro h150 hlinks
    exact keepLine_of line (fun _ => h150) hlinks

/-- Claim C7 witness: the line "Browse" is dropped by the noise filter. -/
theorem C7_nav_filter_witness : keepLine ("Browse".data) = false :=
  (C7_nav_filter ("Browse".data) (by decide)).1 (by decide)

/-- Claim C8: cleaning a document with no start-boundary line, no footer
marker line, no navigation-phrase line under 150 characters, no line with
more than 5 link constructs, and no run of 3 or more consecutive newlines
returns it unchanged except for stripping leading/trailing whitespace. -/
theorem C8_idempotent (doc : String)
    (h1 : ∀ l ∈ splitNl doc.data, startPred l = false)
    (h2 : ∀ l ∈ splitNl doc.data, endPred l = false)
    (h3 : ∀ l ∈ splitNl doc.data, navAny l = true → 150 ≤ l.length)
    (h4 : ∀ l ∈ splitNl doc.data, countLinks l ≤ 5)
    (h5 : hasTriple doc.data = false) :
    clean_terraform_docs doc = String.mk (pyStrip doc.data) := by
  have hne : splitNl doc.data ≠ [] := splitNl_ne_nil doc.data
  have hds : docStart (splitNl doc.data) = 0 := by
    rcases (docStart_spec (splitNl doc.data)).2 with h | ⟨hlt, hsp⟩
    · exact h
    · exact absurd (h1 _ (getD_mem_of_lt _ _ hlt)) (by rw [hsp]; simp)
  have hde : docEnd (splitNl doc.data) (docStart (splitNl doc.data)) =
      (splitNl doc.data).length := by
    rcases docEnd_spec (splitNl doc.data) (docStart (splitNl doc.data)) hne with
      ⟨h, -⟩ | ⟨-, hlt, hep, -⟩
    · exact h
    · exact absurd (h2 _ (getD_mem_of_lt _ _ hlt)) (by rw [hep]; simp)
  have hcl : cleanedLines doc.data = splitNl doc.data := by
    rw [hds] at hde
    rw [cleanedLines, hds, hde]
    simp only [List.drop_zero, Nat.sub_zero, List.take_length]
    exact List.filter_eq_self.2 (fun l hl => keepLine_of l (h3 l hl) (h4 l hl))
  have hchars : cleanChars doc.data = pyStrip doc.data := by
    rw [cleanChars_eq, hcl, joinNl_splitNl, collapse_eq_self doc.data h5]
  show String.mk (cleanChars doc.data) = String.mk (pyStrip doc.data)
  rw [hchars]

/-- Claim C8 witness: a document satisfying all of the hypotheses is
returned stripped-only. -/
theorem C8_idempotent_witness :
    clean_terraform_docs "# hello\n\nworld" =
      String.mk (pyStrip ("# hello\n\nworld".data)) :=
  C8_idempotent "# hello\n\nworld" (by decide) (by decide) (by decide)
    (by decide) (by decide)

/-- Claim C9: the cleaned output never contains three consecutive newlines
and never starts or ends with a whitespace character; an input with five
consecutive newlines comes out with exactly two. -/
theorem C9_whitespace_normalisation :
    (∀ input : String, hasTriple (clean_terraform_docs input).data = false) ∧
    (∀ input : String,
      ((clean_terraform_docs input).data.head?.all (fun c => !isPySpace c)) = true ∧
      ((clean_terraform_docs input).data.getLast?.all (fun c => !isPySpace c)) = true) ∧
    clean_terraform_docs "x\n\n\n\n\ny" = "x\n\ny" := by
  refine ⟨?_, ?_, by decide⟩
  · intro input
    show hasTriple (cleanChars input.data) = false
    rw [cleanChars_eq]
    cases hcon : hasTriple (pyStrip (collapse (joinNl (cleanedLines input.data)))) with
    | false => rfl
    | true =>
      obtain ⟨u, v, huv⟩ := pyStrip_as_mid (collapse (joinNl (cleanedLines input.data)))
      have hup := hasTriple_of_mid u _ v hcon
      rw [← huv, hasTriple_collapse] at hup
      exact absurd hup Bool.false_ne_true
  · intro input
    constructor
    · show ((cleanChars input.data).head?.all (fun c => !isPySpace c)) = true
      rw [cleanChars_eq]
      cases hh : (pyStrip (collapse (joinNl (cleanedLines input.data)))).head? with
      | none => rfl
      | some c =>
        have := pyStrip_head_not_space _ c hh
        simp [this]
    · show ((cleanChars input.data).getLast?.all (fun c => !isPySpace c)) = true
      rw [cleanChars_eq]
      cases hh : (pyStrip (collapse (joinNl (cleanedLines input.data)))).getLast? with
      | none => rfl
      | some c =>
        have := pyStrip_last_not_space _ c hh
        simp [this]

/-- Claim C10: cleaning never lengthens the document — the cleaned output is
at most as long as the raw input. -/
theorem C10_length_le (input : String) :
    (clean_terraform_docs input).length ≤ input.length := by
  show (cleanChars input.data).length ≤ input.data.length
  rw [cleanChars_eq]
  calc (pyStrip (collapse (joinNl (cleanedLines input.data)))).length
      ≤ (collapse (joinNl (cleanedLines input.data))).length := pyStrip_length_le _
    _ ≤ (joinNl (cleanedLines input.data)).length := collapse_length_le _
    _ ≤ (joinNl (splitNl input.data)).length :=
        joinNl_length_le_of_sublist _ _ (cleanedLines_sublist input.data)
    _ = input.data.length := by rw [joinNl_splitNl]

/-- Claim C2 witness: the "timeout" instance of the amended claim. -/
theorem C2_render_failure_witness :
    scrape_url (.outcome ⟨false, "", "timeout"⟩) =
      .httpError 500 ("Crawl failed: " ++ "timeout") ∧
    ("timeout".data) <:+: ("Crawl failed: " ++ "timeout").data :=
  C2_render_failure "" "timeout"

/-- Claim C10 witness: a concrete instance of the length bound. -/
theorem C10_length_le_witness :
    (clean_terraform_docs "# azurerm_foo\ndocs").length ≤
      ("# azurerm_foo\ndocs" : String).length :=
  C10_length_le "# azurerm_foo\ndocs"
